import Mathlib

/-!
Verification of the KoAlpaca GPT-J notebooks.

The repository is a set of Jupyter notebooks around an externally supplied
GPT-J pipeline.  Two pieces of genuine in-repository code are embedded
directly from the notebooks: the MNLI prompt-formatting functions and the
`compute_accuracy` function.  The group-quantization codec that the
notebooks configure (`config.execution.group_quantise_weights`) is
implemented in an external popxl-addons custom op; it is modelled here from
the design specification (scale/bias affine quantizer over groups of `n`
values, four 4-bit codes per 16-bit word).  Matrices are embedded with
rational entries standing for the floating-point values.
-/

namespace GroupQuant

/-- Python-style list indexing `l[i]`: a negative index counts from the end
of the list; an index out of range (after that adjustment) raises
`IndexError`, modelled as `none`. -/
def pyIndex {α : Type} (l : List α) (i : Int) : Option α :=
  let j : Int := if i < 0 then i + l.length else i
  if 0 ≤ j then l.get? j.toNat else none

/-- The three-class label list used by `form_training_prompts` and
`form_validation_prompts` in the fine-tuning notebook. -/
def mnliTrainClasses : List String := ["entailment", "neutral", "contradiction"]

/-- The prompt builder of the fine-tuning notebook:
`class_label = ["entailment", "neutral", "contradiction"][example["label"]]`
followed by an f-string.  A label for which the list indexing raises
`IndexError` yields `none`. -/
def form_training_prompts (hypothesis premise : String) (label : Int) :
    Option String :=
  (pyIndex mnliTrainClasses label).map fun cl =>
    "mnli hypothesis: " ++ hypothesis ++ " premise: " ++ premise ++
      " target: " ++ cl ++ "<|endoftext|>"

/-- The four-class label list of `compute_accuracy` in the quantization
notebook (`mnli_classes`). -/
def mnliClasses : List String :=
  ["entailment", "neutral", "contradiction", "unknown"]

/-- The `compute_accuracy` function of the quantization notebook:
`correct = [pred == mnli_classes[actual] for pred, actual in zip(predictions, labels)]`
then `sum(correct) * 100 / len(predictions)`.  An `IndexError` inside the
comprehension or the `ZeroDivisionError` on an empty prediction list is
modelled as `none`; the exact rational value stands for the float result. -/
def compute_accuracy (predictions : List String) (labels : List Int) :
    Option ℚ :=
  ((predictions.zip labels).mapM
      fun pl => (pyIndex mnliClasses pl.2).map fun c => decide (pl.1 = c)).bind
    fun correct =>
      if predictions.length = 0 then none
      else some (((correct.count true : ℕ) * 100 : ℚ) / predictions.length)

/-- Modelled from the spec: the weight matrix fed to the group-quantization
codec, which is implemented in an external popxl-addons custom op and absent
from this repository.  A two-dimensional array of floating-point values
(rational entries here), shape `(rows, columns)`. -/
structure Matrix where
  cols : Nat
  data : List (List ℚ)

/-- Row count of a matrix. -/
def Matrix.rows (M : Matrix) : Nat := M.data.length

/-- Well-formedness: every row has exactly `cols` entries. -/
def Matrix.WF (M : Matrix) : Prop := ∀ r ∈ M.data, r.length = M.cols

/-- Split a list into consecutive chunks of `n` elements (the quantization
groups along one row).  For `n = 0` or an empty list the result is empty. -/
def chunkList {α : Type} (n : Nat) (l : List α) : List (List α) :=
  if h : l.isEmpty ∨ n = 0 then []
  else l.take n :: chunkList n (l.drop n)
termination_by l.length
decreasing_by
  rcases l with _ | ⟨a, l⟩
  · exact absurd (Or.inl rfl) h
  · simp only [List.length_drop, List.length_cons]
    omega

/-- Smallest element of a list of rationals (`min_value` of a group). -/
def listMin : List ℚ → ℚ
  | [] => 0
  | x :: xs => xs.foldl min x

/-- Largest element of a list of rationals (`max_value` of a group). -/
def listMax : List ℚ → ℚ
  | [] => 0
  | x :: xs => xs.foldl max x

/-- Modelled from the spec: per-group scale
`(max_value - min_value) / 15`, with the safe default `1` substituted for a
degenerate group (`max_value == min_value`). -/
def groupScale (g : List ℚ) : ℚ :=
  if listMax g = listMin g then 1 else (listMax g - listMin g) / 15

/-- Modelled from the spec: per-group bias, the group minimum. -/
def groupBias (g : List ℚ) : ℚ := listMin g

/-- Modelled from the spec: bin index of one value,
`round((v - bias) / scale)` clamped to `[0, 15]`. -/
def quantize (scale bias v : ℚ) : Nat :=
  (min 15 (max 0 (round ((v - bias) / scale)))).toNat

/-- Modelled from the spec: dequantize one bin index,
`value = bin_index * scale + bias`. -/
def dequant (scale bias : ℚ) (b : Nat) : ℚ := b * scale + bias

/-- Modelled from the spec: pack four consecutive 4-bit bin indices into one
16-bit storage word, first index in the lowest nibble. -/
def pack4 : List Nat → List Nat
  | b0 :: b1 :: b2 :: b3 :: rest =>
    (b0 + 16 * b1 + 256 * b2 + 4096 * b3) :: pack4 rest
  | _ => []

/-- Modelled from the spec: unpack one 16-bit word into its four 4-bit bin
indices, in the same fixed order used at compress time. -/
def unpack16 (w : Nat) : List Nat :=
  [w % 16, w / 16 % 16, w / 256 % 16, w / 4096 % 16]

/-- All bin indices of one row: each group of `n` values quantized against
its own scale and bias, concatenated back in row order. -/
def rowBins (n : Nat) (row : List ℚ) : List Nat :=
  ((chunkList n row).map fun g =>
    g.map (quantize (groupScale g) (groupBias g))).flatten

/-- Modelled from the spec: the error taxonomy of the codec. -/
inductive QuantError
  | invalidGroupSize
deriving DecidableEq

/-- Modelled from the spec: the packed representation produced by
`Compress` — packed 16-bit code words (`rows × cols/4`) and per-group scale
and bias arrays (`rows × cols/n`). -/
structure Compressed where
  cols : Nat
  groupSize : Nat
  packed : List (List Nat)
  scales : List (List ℚ)
  biases : List (List ℚ)

/-- Modelled from the spec: `Compress(matrix, group_size n)`, absent from
this repository (external popxl-addons kernel).  Validates
`matrix.columns % n == 0` and `n % 4 == 0` up front, then quantizes each
group of each row and packs four 4-bit codes per 16-bit word. -/
def compress (M : Matrix) (n : Nat) : Except QuantError Compressed :=
  if M.cols % n = 0 ∧ n % 4 = 0 then
    .ok { cols := M.cols
          groupSize := n
          packed := M.data.map fun row => pack4 (rowBins n row)
          scales := M.data.map fun row => (chunkList n row).map groupScale
          biases := M.data.map fun row => (chunkList n row).map groupBias }
  else .error .invalidGroupSize

/-- Decompress one row: unpack all code words, regroup into groups of `n`,
and map each bin index through `bin_index * scale + bias`. -/
def decompressRow (n : Nat) (p : List Nat) (ss bs : List ℚ) : List ℚ :=
  (((chunkList n ((p.map unpack16).flatten)).zip (ss.zip bs)).map fun gsb =>
    gsb.1.map (dequant gsb.2.1 gsb.2.2)).flatten

/-- Modelled from the spec: `Decompress`, the exact inverse of packing
followed by per-group affine dequantization. -/
def decompress (C : Compressed) : Matrix :=
  { cols := C.cols
    data := (C.packed.zip (C.scales.zip C.biases)).map fun psb =>
      decompressRow C.groupSize psb.1 psb.2.1 psb.2.2 }

/-- Total storage bits of a packed representation: 16 bits for every packed
code word, every scale, and every bias. -/
def compressedBits (C : Compressed) : Nat :=
  16 * ((C.packed.map List.length).sum + (C.scales.map List.length).sum +
    (C.biases.map List.length).sum)

/-- The `bits_per_param` function of the quantization notebook:
`(n * 4 + 2 * 16) / n` for group size `n`. -/
def bits_per_param (n : ℚ) : ℚ := (n * 4 + 2 * 16) / n

/-- Metadata-to-payload overhead fraction of a group of size `n`: 32 bits of
metadata over `4n` payload bits. -/
def overheadFraction (n : ℚ) : ℚ := 32 / (4 * n)

/-- Modelled from the spec: the weights handed to the pipeline, either the
uncompressed floating-point matrix or a packed representation. -/
inductive Weights
  | uncompressed (M : Matrix)
  | quantised (C : Compressed)

/-- Modelled from the spec: the pipeline's treatment of the
`group_quantise_weights` configuration option, absent from this repository —
`0` designates "no quantization" (the uncompressed weights are used and
`Compress` is never invoked); any other value is passed to `Compress`. -/
def pipelineWeights (M : Matrix) (n : Nat) : Except QuantError Weights :=
  if n = 0 then .ok (.uncompressed M)
  else (compress M n).map .quantised

theorem chunkList_nil (n : Nat) : chunkList n ([] : List α) = [] := by
  rw [chunkList]; simp

theorem chunkList_cons (n : Nat) (hn : n ≠ 0) (l : List α) (hl : l ≠ []) :
    chunkList n l = l.take n :: chunkList n (l.drop n) := by
  rw [chunkList]
  simp [hl, hn]

theorem chunkList_flatten (n : Nat) (hn : n ≠ 0) (l : List α) :
    (chunkList n l).flatten = l := by
  induction l using chunkList.induct n with
  | case1 l h =>
    rcases h with h | h
    · simp only [List.isEmpty_iff] at h
      simp [h, chunkList_nil]
    · exact absurd h hn
  | case2 l h ih =>
    rw [chunkList_cons n hn l (by simpa using (not_or.mp h).1)]
    simp [ih]

theorem sub_mod_self (n m : Nat) (h : m % n = 0) : (m - n) % n = 0 :=
  Nat.mod_eq_zero_of_dvd (Nat.dvd_sub' (Nat.dvd_of_mod_eq_zero h) dvd_rfl)

theorem chunkList_mem_length (n : Nat) (hn : n ≠ 0) (l : List α)
    (hdvd : l.length % n = 0) : ∀ c ∈ chunkList n l, c.length = n := by
  induction l using chunkList.induct n with
  | case1 l h =>
    rcases h with h | h
    · simp only [List.isEmpty_iff] at h
      simp [h, chunkList_nil]
    · exact absurd h hn
  | case2 l h ih =>
    have hl : l ≠ [] := by simpa using (not_or.mp h).1
    have h0 : 0 < l.length := List.length_pos.mpr hl
    have hlen : n ≤ l.length := Nat.le_of_dvd h0 (Nat.dvd_of_mod_eq_zero hdvd)
    rw [chunkList_cons n hn l hl]
    intro c hc
    rcases hc with _ | ⟨_, hc⟩
    · simp [List.length_take, Nat.min_eq_left hlen]
    · exact ih (by simpa using sub_mod_self n l.length hdvd) c hc

theorem chunkList_length (n : Nat) (hn : n ≠ 0) (l : List α)
    (hdvd : l.length % n = 0) : (chunkList n l).length = l.length / n := by
  induction l using chunkList.induct n with
  | case1 l h =>
    rcases h with h | h
    · simp only [List.isEmpty_iff] at h
      simp [h, chunkList_nil]
    · exact absurd h hn
  | case2 l h ih =>
    have hl : l ≠ [] := by simpa using (not_or.mp h).1
    have h0 : 0 < l.length := List.length_pos.mpr hl
    have hlen : n ≤ l.length := Nat.le_of_dvd h0 (Nat.dvd_of_mod_eq_zero hdvd)
    rw [chunkList_cons n hn l hl]
    have hd : (l.drop n).length % n = 0 := by
      simpa using sub_mod_self n l.length hdvd
    simp only [List.length_cons, ih hd, List.length_drop]
    rcases Nat.dvd_of_mod_eq_zero hdvd with ⟨k, hk⟩
    have hn0 : 0 < n := Nat.pos_of_ne_zero hn
    have hk0 : 0 < k := Nat.pos_of_ne_zero fun h'' => by
      subst h''
      rw [Nat.mul_zero] at hk
      omega
    rw [hk, Nat.mul_div_cancel_left _ hn0]
    have : n * k - n = n * (k - 1) := by
      rw [Nat.mul_sub, Nat.mul_one]
    rw [this, Nat.mul_div_cancel_left _ hn0]
    omega

theorem chunkList_flatten_inv (n : Nat) (hn : n ≠ 0) (L : List (List α))
    (hL : ∀ c ∈ L, c.length = n) : chunkList n L.flatten = L := by
  induction L with
  | nil => simp [chunkList_nil]
  | cons c L ih =>
    have hc : c.length = n := hL c (by simp)
    have hcne : c ≠ [] := by
      intro h'
      rw [h'] at hc
      simp at hc
      omega
    have hne : (c :: L).flatten ≠ [] := by
      simp only [List.flatten_cons]
      intro h'
      rcases List.append_eq_nil.mp h' with ⟨h1, _⟩
      exact hcne h1
    rw [chunkList_cons n hn _ hne]
    simp only [List.flatten_cons]
    rw [List.take_left' hc, List.drop_left' hc]
    rw [ih fun d hd => hL d (by simp [hd])]
theorem pack4_shortcase (l : List Nat)
    (hne : ∀ (b0 b1 b2 b3 : ℕ) (rest : List ℕ), l = b0 :: b1 :: b2 :: b3 :: rest → False)
    (h : l.length % 4 = 0) : l = [] := by
  rcases l with _ | ⟨a, _ | ⟨b, _ | ⟨c, _ | ⟨d, rest⟩⟩⟩⟩
  · rfl
  · simp at h
  · simp at h
  · simp only [List.length_cons, List.length_nil] at h
    omega
  · exact absurd rfl (hne a b c d rest)

theorem pack4_length (l : List Nat) (h : l.length % 4 = 0) :
    (pack4 l).length = l.length / 4 := by
  induction l using pack4.induct with
  | case1 b0 b1 b2 b3 rest ih =>
    simp only [pack4, List.length_cons] at *
    rw [ih (by omega)]
    omega
  | case2 l hne =>
    rw [pack4_shortcase l hne h]
    simp [pack4]

theorem unpack16_quad (b0 b1 b2 b3 : Nat) (h0 : b0 < 16) (h1 : b1 < 16)
    (h2 : b2 < 16) (h3 : b3 < 16) :
    unpack16 (b0 + 16 * b1 + 256 * b2 + 4096 * b3) = [b0, b1, b2, b3] := by
  simp only [unpack16, List.cons.injEq, and_true]
  refine ⟨by omega, by omega, by omega, by omega⟩

theorem unpack16_pack4 (l : List Nat) (h : l.length % 4 = 0)
    (hb : ∀ b ∈ l, b < 16) : ((pack4 l).map unpack16).flatten = l := by
  induction l using pack4.induct with
  | case1 b0 b1 b2 b3 rest ih =>
    simp only [pack4, List.map_cons, List.flatten_cons]
    rw [unpack16_quad b0 b1 b2 b3 (hb b0 (by simp)) (hb b1 (by simp))
      (hb b2 (by simp)) (hb b3 (by simp))]
    simp only [List.length_cons] at h
    rw [ih (by omega) (fun b hbm => hb b (by simp [hbm]))]
    rfl
  | case2 l hne =>
    rw [pack4_shortcase l hne h]
    simp [pack4]

theorem pack4_lt (l : List Nat) (hb : ∀ b ∈ l, b < 16) :
    ∀ w ∈ pack4 l, w < 65536 := by
  induction l using pack4.induct with
  | case1 b0 b1 b2 b3 rest ih =>
    simp only [pack4, List.mem_cons]
    intro w hw
    rcases hw with hw | hw
    · have := hb b0 (by simp)
      have := hb b1 (by simp)
      have := hb b2 (by simp)
      have := hb b3 (by simp)
      omega
    · exact ih (fun b hbm => hb b (by simp [hbm])) w hw
  | case2 l hne =>
    intro w hw
    rcases l with _ | ⟨a, _ | ⟨b, _ | ⟨c, _ | ⟨d, rest⟩⟩⟩⟩ <;>
      simp [pack4] at hw
    exact absurd rfl (hne a b c d rest)

theorem pack4_zero (l : List Nat) (hb : ∀ b ∈ l, b = 0) :
    ∀ w ∈ pack4 l, w = 0 := by
  induction l using pack4.induct with
  | case1 b0 b1 b2 b3 rest ih =>
    simp only [pack4, List.mem_cons]
    intro w hw
    rcases hw with hw | hw
    · have e0 := hb b0 (by simp)
      have e1 := hb b1 (by simp)
      have e2 := hb b2 (by simp)
      have e3 := hb b3 (by simp)
      omega
    · exact ih (fun b hbm => hb b (by simp [hbm])) w hw
  | case2 l hne =>
    intro w hw
    rcases l with _ | ⟨a, _ | ⟨b, _ | ⟨c, _ | ⟨d, rest⟩⟩⟩⟩ <;>
      simp [pack4] at hw
    exact absurd rfl (hne a b c d rest)

theorem foldl_min_le_init (xs : List ℚ) (a : ℚ) : xs.foldl min a ≤ a := by
  induction xs generalizing a with
  | nil => simp
  | cons x xs ih =>
    simp only [List.foldl_cons]
    exact le_trans (ih (min a x)) (min_le_left a x)

theorem foldl_min_le_mem (xs : List ℚ) (a v : ℚ) (hv : v ∈ xs) :
    xs.foldl min a ≤ v := by
  induction xs generalizing a with
  | nil => simp at hv
  | cons x xs ih =>
    simp only [List.foldl_cons]
    rcases List.mem_cons.mp hv with h | h
    · subst h
      exact le_trans (foldl_min_le_init xs (min a v)) (min_le_right a v)
    · exact ih (min a x) h

theorem le_foldl_max_init (xs : List ℚ) (a : ℚ) : a ≤ xs.foldl max a := by
  induction xs generalizing a with
  | nil => simp
  | cons x xs ih =>
    simp only [List.foldl_cons]
    exact le_trans (le_max_left a x) (ih (max a x))

theorem mem_le_foldl_max (xs : List ℚ) (a v : ℚ) (hv : v ∈ xs) :
    v ≤ xs.foldl max a := by
  induction xs generalizing a with
  | nil => simp at hv
  | cons x xs ih =>
    simp only [List.foldl_cons]
    rcases List.mem_cons.mp hv with h | h
    · subst h
      exact le_trans (le_max_right a v) (le_foldl_max_init xs (max a v))
    · exact ih (max a x) h

theorem listMin_le (g : List ℚ) (v : ℚ) (hv : v ∈ g) : listMin g ≤ v := by
  rcases g with _ | ⟨x, xs⟩
  · simp at hv
  · simp only [listMin]
    rcases List.mem_cons.mp hv with h | h
    · subst h
      exact foldl_min_le_init xs v
    · exact foldl_min_le_mem xs x v h

theorem le_listMax (g : List ℚ) (v : ℚ) (hv : v ∈ g) : v ≤ listMax g := by
  rcases g with _ | ⟨x, xs⟩
  · simp at hv
  · simp only [listMax]
    rcases List.mem_cons.mp hv with h | h
    · subst h
      exact le_foldl_max_init xs v
    · exact mem_le_foldl_max xs x v h

theorem listMin_le_listMax (g : List ℚ) (hg : g ≠ []) :
    listMin g ≤ listMax g := by
  rcases g with _ | ⟨x, xs⟩
  · exact absurd rfl hg
  · exact le_trans (listMin_le _ x (by simp)) (le_listMax _ x (by simp))

theorem foldl_min_const (xs : List ℚ) (c : ℚ) (hc : ∀ v ∈ xs, v = c) :
    xs.foldl min c = c := by
  induction xs with
  | nil => simp
  | cons x xs ih =>
    have hx : x = c := hc x (by simp)
    simp only [List.foldl_cons, hx, min_self]
    exact ih fun v hv => hc v (by simp [hv])

theorem foldl_max_const (xs : List ℚ) (c : ℚ) (hc : ∀ v ∈ xs, v = c) :
    xs.foldl max c = c := by
  induction xs with
  | nil => simp
  | cons x xs ih =>
    have hx : x = c := hc x (by simp)
    simp only [List.foldl_cons, hx, max_self]
    exact ih fun v hv => hc v (by simp [hv])

theorem listMin_const (g : List ℚ) (c : ℚ) (hc : ∀ v ∈ g, v = c) (hg : g ≠ []) :
    listMin g = c := by
  rcases g with _ | ⟨x, xs⟩
  · exact absurd rfl hg
  · have hx : x = c := hc x (by simp)
    simp only [listMin, hx]
    exact foldl_min_const xs c fun v hv => hc v (by simp [hv])

theorem listMax_const (g : List ℚ) (c : ℚ) (hc : ∀ v ∈ g, v = c) (hg : g ≠ []) :
    listMax g = c := by
  rcases g with _ | ⟨x, xs⟩
  · exact absurd rfl hg
  · have hx : x = c := hc x (by simp)
    simp only [listMax, hx]
    exact foldl_max_const xs c fun v hv => hc v (by simp [hv])

theorem quantize_lt_16 (s b v : ℚ) : quantize s b v < 16 := by
  have h1 : min 15 (max 0 (round ((v - b) / s))) ≤ (15 : ℤ) := min_le_left _ _
  have h2 : (min 15 (max 0 (round ((v - b) / s)))).toNat ≤ (15 : ℤ).toNat :=
    Int.toNat_le_toNat h1
  simp only [quantize]
  omega

/-- Central accuracy fact of the affine quantizer: for any member of a
group, dequantizing its bin index lands within half a quantization step of
the original value, and exactly on it for a degenerate group. -/
theorem dequant_quantize (g : List ℚ) (v : ℚ) (hv : v ∈ g) :
    |dequant (groupScale g) (groupBias g)
        (quantize (groupScale g) (groupBias g) v) - v|
      ≤ (listMax g - listMin g) / 15 / 2
    ∧ (listMax g = listMin g →
        dequant (groupScale g) (groupBias g)
          (quantize (groupScale g) (groupBias g) v) = v) := by
  have hmn : listMin g ≤ v := listMin_le g v hv
  have hmx : v ≤ listMax g := le_listMax g v hv
  by_cases hdeg : listMax g = listMin g
  · have hveq : v = listMin g := le_antisymm (hdeg ▸ hmx) hmn
    have hq : quantize (groupScale g) (groupBias g) v = 0 := by
      simp [quantize, groupScale, groupBias, hdeg, hveq]
    rw [hq]
    simp [dequant, groupBias, hveq, hdeg]
  · have hlt : listMin g < listMax g :=
      lt_of_le_of_ne (le_trans hmn hmx) (Ne.symm hdeg)
    set mn := listMin g
    set mx := listMax g
    have hs : (0 : ℚ) < (mx - mn) / 15 := by
      apply div_pos (sub_pos.mpr hlt)
      norm_num
    have hsc : groupScale g = (mx - mn) / 15 := if_neg hdeg
    set s : ℚ := (mx - mn) / 15 with hs_def
    set x : ℚ := (v - mn) / s with hx_def
    have hx0 : (0 : ℚ) ≤ x := div_nonneg (sub_nonneg.mpr hmn) hs.le
    have hx15 : x ≤ 15 := by
      rw [hx_def, div_le_iff₀ hs]
      have h15 : 15 * s = mx - mn := by
        rw [hs_def, mul_comm, div_mul_cancel₀ _ (by norm_num : (15 : ℚ) ≠ 0)]
      linarith
    have h0r : (0 : ℤ) ≤ round x := by
      rw [round_eq]
      exact Int.le_floor.mpr (by push_cast; linarith)
    have hr15 : round x ≤ 15 := by
      have hle : (round x : ℚ) ≤ x + 1 / 2 := round_le_add_half x
      have h16 : (round x : ℚ) < 16 := by linarith
      have h16' : round x < (16 : ℤ) := by exact_mod_cast h16
      omega
    have hq : quantize (groupScale g) (groupBias g) v = (round x).toNat := by
      simp only [quantize, hsc, groupBias]
      rw [max_eq_right h0r, min_eq_right hr15]
    have hcast : ((round x).toNat : ℚ) = (round x : ℚ) := by
      rw [← Int.cast_natCast]
      congr 1
      exact Int.toNat_of_nonneg h0r
    have hd : dequant (groupScale g) (groupBias g)
        (quantize (groupScale g) (groupBias g) v) = (round x : ℚ) * s + mn := by
      rw [hq]
      simp only [dequant, hsc, groupBias]
      rw [hcast]
    have hxs : x * s = v - mn := div_mul_cancel₀ _ (ne_of_gt hs)
    constructor
    · rw [hd]
      have heq : (round x : ℚ) * s + mn - v = ((round x : ℚ) - x) * s := by
        rw [sub_mul, hxs]
        ring
      rw [heq, abs_mul, abs_of_pos hs]
      have habs : |(round x : ℚ) - x| ≤ 1 / 2 := by
        rw [abs_sub_comm]
        exact abs_sub_round x
      calc |(round x : ℚ) - x| * s ≤ 1 / 2 * s :=
            mul_le_mul_of_nonneg_right habs hs.le
        _ = s / 2 := by ring
    · intro h
      exact absurd h hdeg

theorem zip_map₃ {α β γ δ : Type} (L : List α) (f : α → β) (g : α → γ)
    (h : α → δ) :
    (L.map f).zip ((L.map g).zip (L.map h)) = L.map fun x => (f x, g x, h x) := by
  induction L with
  | nil => simp
  | cons a L ih => simp [ih]

theorem flatten_map_map_length {α β : Type} (L : List (List α))
    (F : List α → α → β) :
    ((L.map fun g => g.map (F g)).flatten).length = L.flatten.length := by
  induction L with
  | nil => simp
  | cons c L ih => simp [ih]

theorem rowBins_length (n : Nat) (hn : n ≠ 0) (row : List ℚ) :
    (rowBins n row).length = row.length := by
  unfold rowBins
  rw [flatten_map_map_length (chunkList n row)
    (fun g => quantize (groupScale g) (groupBias g))]
  rw [chunkList_flatten n hn row]

theorem rowBins_lt_16 (n : Nat) (row : List ℚ) :
    ∀ b ∈ rowBins n row, b < 16 := by
  intro b hb
  simp only [rowBins, List.mem_flatten, List.mem_map] at hb
  rcases hb with ⟨l, ⟨g, _, rfl⟩, hbl⟩
  rcases List.mem_map.mp hbl with ⟨v, _, rfl⟩
  exact quantize_lt_16 _ _ _

theorem decompressRow_compress (n : Nat) (hn : n ≠ 0) (h4 : n % 4 = 0)
    (row : List ℚ) (hrow : row.length % n = 0) :
    decompressRow n (pack4 (rowBins n row)) ((chunkList n row).map groupScale)
      ((chunkList n row).map groupBias)
    = ((chunkList n row).map fun g =>
        g.map fun v => dequant (groupScale g) (groupBias g)
          (quantize (groupScale g) (groupBias g) v)).flatten := by
  have h4row : row.length % 4 = 0 :=
    Nat.mod_eq_zero_of_dvd
      (dvd_trans (Nat.dvd_of_mod_eq_zero h4) (Nat.dvd_of_mod_eq_zero hrow))
  have hbl : (rowBins n row).length % 4 = 0 := by
    rw [rowBins_length n hn row]
    exact h4row
  have hup : ((pack4 (rowBins n row)).map unpack16).flatten = rowBins n row :=
    unpack16_pack4 _ hbl (rowBins_lt_16 n row)
  have hch : chunkList n (rowBins n row) =
      (chunkList n row).map fun g =>
        g.map (quantize (groupScale g) (groupBias g)) := by
    unfold rowBins
    apply chunkList_flatten_inv n hn
    intro c hc
    rcases List.mem_map.mp hc with ⟨g, hg, rfl⟩
    rw [List.length_map]
    exact chunkList_mem_length n hn row hrow g hg
  unfold decompressRow
  rw [hup, hch, zip_map₃]
  rw [List.map_map]
  congr 1
  apply List.map_congr_left
  intro g _
  simp [Function.comp, List.map_map]

theorem decompress_compress (M : Matrix) (n : Nat) (hn : n ≠ 0) (hwf : M.WF)
    (hval : M.cols % n = 0 ∧ n % 4 = 0) :
    ∃ C, compress M n = .ok C ∧ C.cols = M.cols ∧ C.groupSize = n ∧
      (decompress C).cols = M.cols ∧
      (decompress C).data = M.data.map fun row =>
        ((chunkList n row).map fun g =>
          g.map fun v => dequant (groupScale g) (groupBias g)
            (quantize (groupScale g) (groupBias g) v)).flatten := by
  have hok : compress M n = .ok
      { cols := M.cols, groupSize := n,
        packed := M.data.map fun row => pack4 (rowBins n row),
        scales := M.data.map fun row => (chunkList n row).map groupScale,
        biases := M.data.map fun row => (chunkList n row).map groupBias } := by
    simp only [compress, if_pos hval]
  refine ⟨_, hok, rfl, rfl, rfl, ?_⟩
  · simp only [decompress]
    rw [zip_map₃, List.map_map]
    apply List.map_congr_left
    intro row hrow
    have hlen : row.length % n = 0 := by
      rw [hwf row hrow]
      exact hval.1
    simp only [Function.comp]
    exact decompressRow_compress n hn hval.2 row hlen

theorem chunkList_map_rt (n : Nat) (hn : n ≠ 0) (row : List ℚ)
    (hlen : row.length % n = 0) :
    chunkList n (((chunkList n row).map fun g =>
        g.map fun v => dequant (groupScale g) (groupBias g)
          (quantize (groupScale g) (groupBias g) v)).flatten)
      = (chunkList n row).map fun g =>
          g.map fun v => dequant (groupScale g) (groupBias g)
            (quantize (groupScale g) (groupBias g) v) := by
  apply chunkList_flatten_inv n hn
  intro c hc
  rcases List.mem_map.mp hc with ⟨g, hg, rfl⟩
  rw [List.length_map]
  exact chunkList_mem_length n hn row hlen g hg

/-- Claim C1: for every matrix and valid group size, each round-tripped
element differs from the original by at most `scale / 2` where
`scale = (max_value - min_value) / 15` of its group, and a zero-dynamic-range
group round-trips exactly. -/
theorem roundtrip_error_bound (M : Matrix) (n : Nat) (hn : n ≠ 0)
    (hwf : M.WF) (hval : M.cols % n = 0 ∧ n % 4 = 0) :
    ∃ C, compress M n = .ok C ∧
      List.Forall₂ (fun origRow decRow =>
        List.Forall₂ (fun g dg =>
          List.Forall₂ (fun v d =>
            |d - v| ≤ (listMax g - listMin g) / 15 / 2 ∧
            (listMax g = listMin g → d = v)) g dg)
          (chunkList n origRow) (chunkList n decRow))
        M.data (decompress C).data := by
  obtain ⟨C, hok, _, _, _, hdata⟩ := decompress_compress M n hn hwf hval
  refine ⟨C, hok, ?_⟩
  rw [hdata, List.forall₂_map_right_iff, List.forall₂_same]
  intro row hrow
  have hlen : row.length % n = 0 := by
    rw [hwf row hrow]
    exact hval.1
  rw [chunkList_map_rt n hn row hlen, List.forall₂_map_right_iff,
    List.forall₂_same]
  intro g _
  rw [List.forall₂_map_right_iff, List.forall₂_same]
  intro v hv
  exact dequant_quantize g v hv

/-- Claim C1 witness: the bound instantiated on a concrete 1×4 matrix with
group size 4. -/
theorem roundtrip_error_bound_witness :
    ∃ C, compress ⟨4, [[0, 1, 2, 3]]⟩ 4 = .ok C ∧
      List.Forall₂ (fun origRow decRow =>
        List.Forall₂ (fun g dg =>
          List.Forall₂ (fun v d =>
            |d - v| ≤ (listMax g - listMin g) / 15 / 2 ∧
            (listMax g = listMin g → d = v)) g dg)
          (chunkList 4 origRow) (chunkList 4 decRow))
        (Matrix.mk 4 [[0, 1, 2, 3]]).data (decompress C).data :=
  roundtrip_error_bound ⟨4, [[0, 1, 2, 3]]⟩ 4 (by decide)
    (by intro r hr; simp at hr; simp [hr]) (by decide)

theorem Matrix.ext' (A B : Matrix) (h1 : A.cols = B.cols)
    (h2 : A.data = B.data) : A = B := by
  cases A
  cases B
  cases h1
  cases h2
  rfl

/-- Claim C2: compression fails with `InvalidGroupSizeError` exactly when
the column count is not divisible by the group size or the group size is not
divisible by 4; in every other case it returns a packed output, so a failing
call produces no output at all. -/
theorem compress_validation (M : Matrix) (n : Nat) :
    (compress M n = .error .invalidGroupSize ↔ ¬(n ∣ M.cols ∧ 4 ∣ n)) ∧
    ((∃ C, compress M n = .ok C) ↔ (n ∣ M.cols ∧ 4 ∣ n)) := by
  have hiff : (M.cols % n = 0 ∧ n % 4 = 0) ↔ (n ∣ M.cols ∧ 4 ∣ n) := by
    rw [Nat.dvd_iff_mod_eq_zero, Nat.dvd_iff_mod_eq_zero]
  by_cases h : M.cols % n = 0 ∧ n % 4 = 0
  · constructor
    · simp [compress, if_pos h, hiff.mp h]
    · refine ⟨fun _ => hiff.mp h, fun _ =>
        ⟨{ cols := M.cols, groupSize := n,
           packed := M.data.map fun row => pack4 (rowBins n row),
           scales := M.data.map fun row => (chunkList n row).map groupScale,
           biases := M.data.map fun row => (chunkList n row).map groupBias },
         by simp only [compress, if_pos h]⟩⟩
  · constructor
    · simp [compress, if_neg h, hiff.not.mp h]
    · constructor
      · rintro ⟨C, hC⟩
        simp [compress, if_neg h] at hC
      · intro hd
        exact absurd (hiff.mpr hd) h

theorem mem_of_mem_chunk (n : Nat) (hn : n ≠ 0) (l g : List ℚ)
    (hg : g ∈ chunkList n l) (v : ℚ) (hv : v ∈ g) : v ∈ l := by
  have hmem : v ∈ (chunkList n l).flatten := List.mem_flatten.mpr ⟨g, hg, hv⟩
  rwa [chunkList_flatten n hn l] at hmem

theorem chunk_ne_nil (n : Nat) (hn : n ≠ 0) (l g : List ℚ)
    (hdvd : l.length % n = 0) (hg : g ∈ chunkList n l) : g ≠ [] := by
  intro hnil
  have hlen := chunkList_mem_length n hn l hdvd g hg
  rw [hnil] at hlen
  simp at hlen
  omega

theorem allEq_listMax_eq_listMin (g : List ℚ) (hg : g ≠ [])
    (h : ∀ v ∈ g, ∀ w ∈ g, v = w) : listMax g = listMin g := by
  rcases g with _ | ⟨x, xs⟩
  · exact absurd rfl hg
  · have hc : ∀ v ∈ x :: xs, v = x := fun v hv => h v hv x (by simp)
    rw [listMax_const _ x hc (by simp), listMin_const _ x hc (by simp)]

theorem quantize_degenerate (g : List ℚ) (v : ℚ) (hv : v ∈ g)
    (hdeg : listMax g = listMin g) :
    quantize (groupScale g) (groupBias g) v = 0 := by
  have hvv : v = listMin g :=
    le_antisymm (hdeg ▸ le_listMax g v hv) (listMin_le g v hv)
  simp [quantize, groupScale, groupBias, hdeg, hvv]

theorem chunkList_rowBins (n : Nat) (hn : n ≠ 0) (row : List ℚ)
    (hlen : row.length % n = 0) :
    chunkList n (rowBins n row) = (chunkList n row).map fun g =>
      g.map (quantize (groupScale g) (groupBias g)) := by
  unfold rowBins
  apply chunkList_flatten_inv n hn
  intro c hc
  rcases List.mem_map.mp hc with ⟨g, hg, rfl⟩
  rw [List.length_map]
  exact chunkList_mem_length n hn row hlen g hg

/-- Claim C3: every group whose `n` elements are all equal is compressed
with the safe default scale 1 instead of failing, every bin index in such a
group is 0, and such a group decompresses to its constant value exactly; a
wholly constant matrix therefore decompresses to itself, in particular a
1×64 row of the identical value 5/2 at group size 64. -/
theorem degenerate_group_exact (M : Matrix) (n : Nat) (hn : n ≠ 0)
    (hwf : M.WF) (hval : M.cols % n = 0 ∧ n % 4 = 0) :
    ∃ C, compress M n = .ok C ∧
      List.Forall₂ (fun row srow =>
          List.Forall₂ (fun g s => (∀ v ∈ g, ∀ w ∈ g, v = w) → s = 1)
            (chunkList n row) srow)
        M.data C.scales ∧
      List.Forall₂ (fun row prow =>
          List.Forall₂ (fun g bins =>
            (∀ v ∈ g, ∀ w ∈ g, v = w) → ∀ b ∈ bins, b = 0)
            (chunkList n row) (chunkList n ((prow.map unpack16).flatten)))
        M.data C.packed ∧
      List.Forall₂ (fun row drow =>
          List.Forall₂ (fun g dg => (∀ v ∈ g, ∀ w ∈ g, v = w) → dg = g)
            (chunkList n row) (chunkList n drow))
        M.data (decompress C).data ∧
      ((∀ r ∈ M.data, ∀ v ∈ r, ∀ w ∈ r, v = w) → decompress C = M) := by
  obtain ⟨C, hok, hcols, hgs, hdcols, hdata⟩ :=
    decompress_compress M n hn hwf hval
  have hok2 : compress M n = .ok
      { cols := M.cols, groupSize := n,
        packed := M.data.map fun row => pack4 (rowBins n row),
        scales := M.data.map fun row => (chunkList n row).map groupScale,
        biases := M.data.map fun row => (chunkList n row).map groupBias } := by
    simp only [compress, if_pos hval]
  rw [hok] at hok2
  have hC := Except.ok.inj hok2
  have hrowlen : ∀ row ∈ M.data, row.length % n = 0 := by
    intro row hrow
    rw [hwf row hrow]
    exact hval.1
  refine ⟨C, hok, ?_, ?_, ?_, ?_⟩
  · rw [hC]
    dsimp only
    rw [List.forall₂_map_right_iff, List.forall₂_same]
    intro row hrow
    rw [List.forall₂_map_right_iff, List.forall₂_same]
    intro g hg hall
    have hgne : g ≠ [] := chunk_ne_nil n hn row g (hrowlen row hrow) hg
    simp [groupScale, allEq_listMax_eq_listMin g hgne hall]
  · rw [hC]
    dsimp only
    rw [List.forall₂_map_right_iff, List.forall₂_same]
    intro row hrow
    have h4row : row.length % 4 = 0 := by
      rw [hwf row hrow]
      exact Nat.mod_eq_zero_of_dvd
        (dvd_trans (Nat.dvd_of_mod_eq_zero hval.2)
          (Nat.dvd_of_mod_eq_zero hval.1))
    have hup : ((pack4 (rowBins n row)).map unpack16).flatten
        = rowBins n row :=
      unpack16_pack4 _ (by rw [rowBins_length n hn row]; exact h4row)
        (rowBins_lt_16 n row)
    rw [hup, chunkList_rowBins n hn row (hrowlen row hrow)]
    rw [List.forall₂_map_right_iff, List.forall₂_same]
    intro g hg hall b hb
    rcases List.mem_map.mp hb with ⟨v, hv, rfl⟩
    have hgne : g ≠ [] := chunk_ne_nil n hn row g (hrowlen row hrow) hg
    exact quantize_degenerate g v hv (allEq_listMax_eq_listMin g hgne hall)
  · rw [hdata]
    rw [List.forall₂_map_right_iff, List.forall₂_same]
    intro row hrow
    rw [chunkList_map_rt n hn row (hrowlen row hrow)]
    rw [List.forall₂_map_right_iff, List.forall₂_same]
    intro g hg hall
    have hgne : g ≠ [] := chunk_ne_nil n hn row g (hrowlen row hrow) hg
    have hdeg := allEq_listMax_eq_listMin g hgne hall
    have hmap : (g.map fun v => dequant (groupScale g) (groupBias g)
        (quantize (groupScale g) (groupBias g) v)) = g.map id :=
      List.map_congr_left fun v hv => (dequant_quantize g v hv).2 hdeg
    rw [hmap, List.map_id]
  · intro hconst
    apply Matrix.ext'
    · rw [hdcols]
    · rw [hdata]
      have hid : M.data.map (fun row =>
          ((chunkList n row).map fun g =>
            g.map fun v => dequant (groupScale g) (groupBias g)
              (quantize (groupScale g) (groupBias g) v)).flatten)
          = M.data.map id := by
        apply List.map_congr_left
        intro row hrow
        have hrt : ((chunkList n row).map fun g =>
            g.map fun v => dequant (groupScale g) (groupBias g)
              (quantize (groupScale g) (groupBias g) v))
            = (chunkList n row).map id := by
          apply List.map_congr_left
          intro g hg
          have hgne : g ≠ [] := chunk_ne_nil n hn row g (hrowlen row hrow) hg
          have hall : ∀ v ∈ g, ∀ w ∈ g, v = w := fun v hv w hw =>
            hconst row hrow v (mem_of_mem_chunk n hn row g hg v hv) w
              (mem_of_mem_chunk n hn row g hg w hw)
          have hdeg := allEq_listMax_eq_listMin g hgne hall
          have hgmap : (g.map fun v => dequant (groupScale g) (groupBias g)
              (quantize (groupScale g) (groupBias g) v)) = g.map id :=
            List.map_congr_left fun v hv => (dequant_quantize g v hv).2 hdeg
          rw [hgmap, List.map_id]
          rfl
        rw [hrt, List.map_id]
        simpa using chunkList_flatten n hn row
      rw [hid, List.map_id]

/-- Claim C3 witness: the 1×64 row of all-identical value 5/2 at group size
64 compresses without failing and decompresses to all exactly 5/2. -/
theorem degenerate_group_exact_witness :
    ∃ C, compress ⟨64, [List.replicate 64 (5 / 2 : ℚ)]⟩ 64 = .ok C ∧
      decompress C = ⟨64, [List.replicate 64 (5 / 2 : ℚ)]⟩ := by
  obtain ⟨C, hok, _, _, _, hconst⟩ :=
    degenerate_group_exact ⟨64, [List.replicate 64 (5 / 2 : ℚ)]⟩ 64
      (by decide)
      (by
        intro r hr
        simp only [List.mem_singleton] at hr
        simp [hr])
      (by decide)
  refine ⟨C, hok, hconst ?_⟩
  intro r hr v hv w hw
  simp only [List.mem_singleton] at hr
  rw [hr] at hv hw
  rw [List.eq_of_mem_replicate hv, List.eq_of_mem_replicate hw]

/-- Claim C4: decompressing a compressed matrix reproduces the original
shape exactly — same column count, same row count, and every decompressed
row has exactly `cols` entries. -/
theorem shape_preservation (M : Matrix) (n : Nat) (hn : n ≠ 0) (hwf : M.WF)
    (hval : M.cols % n = 0 ∧ n % 4 = 0) :
    ∃ C, compress M n = .ok C ∧ (decompress C).cols = M.cols ∧
      (decompress C).rows = M.rows ∧
      ∀ r ∈ (decompress C).data, r.length = M.cols := by
  obtain ⟨C, hok, _, _, hdcols, hdata⟩ := decompress_compress M n hn hwf hval
  refine ⟨C, hok, hdcols, ?_, ?_⟩
  · simp [Matrix.rows, hdata]
  · rw [hdata]
    intro r hr
    rcases List.mem_map.mp hr with ⟨row, hrow, rfl⟩
    rw [flatten_map_map_length (chunkList n row)
      (fun g => fun v => dequant (groupScale g) (groupBias g)
        (quantize (groupScale g) (groupBias g) v))]
    rw [chunkList_flatten n hn row]
    exact hwf row hrow

/-- Claim C4 witness: shape preservation instantiated on a concrete 2×8
matrix with group size 4. -/
theorem shape_preservation_witness :
    ∃ C, compress ⟨8, [[0, 1, 2, 3, 4, 5, 6, 7], [7, 6, 5, 4, 3, 2, 1, 0]]⟩ 4
        = .ok C ∧
      (decompress C).cols = 8 ∧
      (decompress C).rows = Matrix.rows ⟨8, [[0, 1, 2, 3, 4, 5, 6, 7],
        [7, 6, 5, 4, 3, 2, 1, 0]]⟩ ∧
      ∀ r ∈ (decompress C).data, r.length = 8 :=
  shape_preservation ⟨8, [[0, 1, 2, 3, 4, 5, 6, 7], [7, 6, 5, 4, 3, 2, 1, 0]]⟩
    4 (by decide)
    (by
      intro r hr
      simp only [List.mem_cons, List.mem_singleton] at hr
      rcases hr with hr | hr | hr
      · simp [hr]
      · simp [hr]
      · simp at hr)
    (by decide)

/-- Claim C5: compression emits exactly `cols / 4` 16-bit words per row with
no residual bits, scale and bias arrays of shape `rows × cols / n`, and
unpacking each word recovers the four 4-bit bin indices in the order they
were packed. -/
theorem packing_exactness (M : Matrix) (n : Nat) (hn : n ≠ 0) (hwf : M.WF)
    (hval : M.cols % n = 0 ∧ n % 4 = 0) :
    ∃ C, compress M n = .ok C ∧
      C.packed.length = M.rows ∧
      (∀ p ∈ C.packed, p.length = M.cols / 4) ∧
      (∀ p ∈ C.packed, ∀ w ∈ p, w < 65536) ∧
      C.scales.length = M.rows ∧ (∀ s ∈ C.scales, s.length = M.cols / n) ∧
      C.biases.length = M.rows ∧ (∀ b ∈ C.biases, b.length = M.cols / n) ∧
      List.Forall₂ (fun row p => (p.map unpack16).flatten = rowBins n row)
        M.data C.packed := by
  have h4cols : M.cols % 4 = 0 :=
    Nat.mod_eq_zero_of_dvd
      (dvd_trans (Nat.dvd_of_mod_eq_zero hval.2)
        (Nat.dvd_of_mod_eq_zero hval.1))
  refine ⟨{ cols := M.cols, groupSize := n,
            packed := M.data.map fun row => pack4 (rowBins n row),
            scales := M.data.map fun row => (chunkList n row).map groupScale,
            biases := M.data.map fun row => (chunkList n row).map groupBias },
    by simp only [compress, if_pos hval], ?_, ?_, ?_, ?_, ?_, ?_, ?_, ?_⟩
  · simp [Matrix.rows]
  · intro p hp
    rcases List.mem_map.mp hp with ⟨row, hrow, rfl⟩
    rw [pack4_length _ (by rw [rowBins_length n hn row, hwf row hrow]; exact h4cols)]
    rw [rowBins_length n hn row, hwf row hrow]
  · intro p hp w hw
    rcases List.mem_map.mp hp with ⟨row, _, rfl⟩
    exact pack4_lt _ (rowBins_lt_16 n row) w hw
  · simp [Matrix.rows]
  · intro s hs
    rcases List.mem_map.mp hs with ⟨row, hrow, rfl⟩
    rw [List.length_map,
      chunkList_length n hn row (by rw [hwf row hrow]; exact hval.1),
      hwf row hrow]
  · simp [Matrix.rows]
  · intro b hb
    rcases List.mem_map.mp hb with ⟨row, hrow, rfl⟩
    rw [List.length_map,
      chunkList_length n hn row (by rw [hwf row hrow]; exact hval.1),
      hwf row hrow]
  · rw [List.forall₂_map_right_iff, List.forall₂_same]
    intro row hrow
    refine unpack16_pack4 _ ?_ (rowBins_lt_16 n row)
    rw [rowBins_length n hn row, hwf row hrow]
    exact h4cols

/-- Claim C5 witness: packing exactness instantiated on a concrete 1×8
matrix with group size 8. -/
theorem packing_exactness_witness :
    ∃ C, compress ⟨8, [[0, 1, 2, 3, 4, 5, 6, 7]]⟩ 8 = .ok C ∧
      C.packed.length = Matrix.rows ⟨8, [[0, 1, 2, 3, 4, 5, 6, 7]]⟩ ∧
      (∀ p ∈ C.packed, p.length = 8 / 4) ∧
      (∀ p ∈ C.packed, ∀ w ∈ p, w < 65536) ∧
      C.scales.length = Matrix.rows ⟨8, [[0, 1, 2, 3, 4, 5, 6, 7]]⟩ ∧
      (∀ s ∈ C.scales, s.length = 8 / 8) ∧
      C.biases.length = Matrix.rows ⟨8, [[0, 1, 2, 3, 4, 5, 6, 7]]⟩ ∧
      (∀ b ∈ C.biases, b.length = 8 / 8) ∧
      List.Forall₂ (fun row p => (p.map unpack16).flatten = rowBins 8 row)
        (Matrix.mk 8 [[0, 1, 2, 3, 4, 5, 6, 7]]).data C.packed :=
  packing_exactness ⟨8, [[0, 1, 2, 3, 4, 5, 6, 7]]⟩ 8 (by decide)
    (by
      intro r hr
      simp only [List.mem_singleton] at hr
      simp [hr])
    (by decide)

theorem sum_map_const {α : Type} (L : List α) (f : α → ℕ) (k : ℕ)
    (h : ∀ x ∈ L, f x = k) : (L.map f).sum = L.length * k := by
  induction L with
  | nil => simp
  | cons a L ih =>
    simp only [List.map_cons, List.sum_cons, List.length_cons, h a (by simp),
      ih fun x hx => h x (by simp [hx])]
    ring

theorem compressedBits_compress (M : Matrix) (n : Nat) (hn : n ≠ 0)
    (hwf : M.WF) (hval : M.cols % n = 0 ∧ n % 4 = 0) :
    ∃ C, compress M n = .ok C ∧
      compressedBits C = M.rows * ((M.cols / n) * (4 * n + 32)) := by
  have h4cols : M.cols % 4 = 0 :=
    Nat.mod_eq_zero_of_dvd
      (dvd_trans (Nat.dvd_of_mod_eq_zero hval.2)
        (Nat.dvd_of_mod_eq_zero hval.1))
  refine ⟨{ cols := M.cols, groupSize := n,
            packed := M.data.map fun row => pack4 (rowBins n row),
            scales := M.data.map fun row => (chunkList n row).map groupScale,
            biases := M.data.map fun row => (chunkList n row).map groupBias },
    by simp only [compress, if_pos hval], ?_⟩
  simp only [compressedBits, List.map_map]
  rw [sum_map_const M.data _ (M.cols / 4) ?hp, sum_map_const M.data _ (M.cols / n) ?hs,
    sum_map_const M.data _ (M.cols / n) ?hb]
  case hp =>
    intro row hrow
    simp only [Function.comp]
    rw [pack4_length _ (by rw [rowBins_length n hn row, hwf row hrow]; exact h4cols),
      rowBins_length n hn row, hwf row hrow]
  case hs =>
    intro row hrow
    simp only [Function.comp]
    rw [List.length_map,
      chunkList_length n hn row (by rw [hwf row hrow]; exact hval.1),
      hwf row hrow]
  case hb =>
    intro row hrow
    simp only [Function.comp]
    rw [List.length_map,
      chunkList_length n hn row (by rw [hwf row hrow]; exact hval.1),
      hwf row hrow]
  obtain ⟨a, ha⟩ := Nat.dvd_of_mod_eq_zero hval.2
  obtain ⟨q, hq⟩ := Nat.dvd_of_mod_eq_zero hval.1
  have hq4 : M.cols / 4 = a * q := by
    rw [hq, ha]
    rw [Nat.mul_assoc, Nat.mul_div_cancel_left _ (by norm_num : 0 < 4)]
  have hqn : M.cols / n = q := by
    rw [hq, Nat.mul_div_cancel_left _ (Nat.pos_of_ne_zero hn)]
  rw [hq4, hqn, Matrix.rows, ha]
  ring

/-- Claim C6: a group of `n` elements costs `4n + 32` bits (4 bits per
element plus 16-bit scale and bias), `bits_per_param` computes
`(4n + 32) / n`, and the compression ratio `16n / (4n + 32)` stays below 4,
grows with `n`, and gets arbitrarily close to 4. -/
theorem storage_cost :
    (∀ (M : Matrix) (n : Nat), n ≠ 0 → M.WF →
      (M.cols % n = 0 ∧ n % 4 = 0) →
      ∃ C, compress M n = .ok C ∧
        compressedBits C = M.rows * ((M.cols / n) * (4 * n + 32))) ∧
    (∀ n : ℚ, bits_per_param n = (4 * n + 32) / n) ∧
    (∀ n : ℚ, 0 < n → 16 * n / (4 * n + 32) < 4) ∧
    (∀ n m : ℚ, 0 < n → n < m →
      16 * n / (4 * n + 32) < 16 * m / (4 * m + 32)) ∧
    (∀ ε : ℚ, 0 < ε → ∃ n : ℚ, 0 < n ∧ 4 - 16 * n / (4 * n + 32) < ε) := by
  refine ⟨compressedBits_compress, ?_, ?_, ?_, ?_⟩
  · intro n
    unfold bits_per_param
    ring_nf
  · intro n hpos
    have hden : (0 : ℚ) < 4 * n + 32 := by linarith
    rw [div_lt_iff₀ hden]
    linarith
  · intro n m hn hnm
    have hdn : (0 : ℚ) < 4 * n + 32 := by linarith
    have hdm : (0 : ℚ) < 4 * m + 32 := by linarith
    rw [div_lt_div_iff₀ hdn hdm]
    nlinarith
  · intro ε hε
    refine ⟨32 / ε + 1, by positivity, ?_⟩
    have hden : (0 : ℚ) < 4 * (32 / ε + 1) + 32 := by positivity
    have heq : 4 - 16 * (32 / ε + 1) / (4 * (32 / ε + 1) + 32)
        = 128 / (4 * (32 / ε + 1) + 32) := by
      field_simp
      ring
    rw [heq, div_lt_iff₀ hden]
    have hexp : ε * (4 * (32 / ε + 1) + 32) = 128 + 36 * ε := by
      field_simp
      ring
    rw [hexp]
    linarith

/-- Claim C6 witness: the storage identity on a concrete 1×4 matrix with
group size 4, and `bits_per_param` at the notebook's group size 64. -/
theorem storage_cost_witness :
    (∃ C, compress ⟨4, [[0, 1, 2, 3]]⟩ 4 = .ok C ∧
      compressedBits C =
        Matrix.rows ⟨4, [[0, 1, 2, 3]]⟩ * ((4 / 4) * (4 * 4 + 32))) ∧
    bits_per_param 64 = (4 * 64 + 32) / 64 :=
  ⟨storage_cost.1 ⟨4, [[0, 1, 2, 3]]⟩ 4 (by decide)
      (by
        intro r hr
        simp only [List.mem_singleton] at hr
        simp [hr])
      (by decide),
    storage_cost.2.1 64⟩

/-- Claim C7 counterexample: for a fixed matrix shape with zero rows (or
zero columns), the compressed size does not strictly decrease when the group
size grows from 16 to 32 — it is equal, refuting strict monotonicity over
all fixed shapes. -/
theorem compressed_size_not_strictly_monotone :
    compress ⟨64, ([] : List (List ℚ))⟩ 16 = .ok ⟨64, 16, [], [], []⟩ ∧
    compress ⟨64, ([] : List (List ℚ))⟩ 32 = .ok ⟨64, 32, [], [], []⟩ ∧
    compressedBits ⟨64, 32, [], [], []⟩ = compressedBits ⟨64, 16, [], [], []⟩ ∧
    compress ⟨0, [([] : List ℚ)]⟩ 16 = .ok ⟨0, 16, [[]], [[]], [[]]⟩ ∧
    compress ⟨0, [([] : List ℚ)]⟩ 32 = .ok ⟨0, 32, [[]], [[]], [[]]⟩ ∧
    compressedBits ⟨0, 32, [[]], [[]], [[]]⟩
      = compressedBits ⟨0, 16, [[]], [[]], [[]]⟩ := by
  refine ⟨?_, ?_, rfl, ?_, ?_, rfl⟩
  · simp [compress]
  · simp [compress]
  · simp [compress, rowBins, chunkList_nil, pack4]
  · simp [compress, rowBins, chunkList_nil, pack4]

/-- Claim C7 as amended: for a fixed matrix shape with at least one row and
at least one column, the total compressed size strictly decreases as the
group size increases over valid group sizes, and the metadata overhead
fraction is `8 / n` — 1/2 at 16, 1/8 at 64, 1/32 (≈ 0.03) at 256. -/
theorem compressed_size_monotone (M : Matrix) (n m : Nat) (hwf : M.WF)
    (hrows : M.rows ≠ 0) (hcols : M.cols ≠ 0) (hn : n ≠ 0) (hm : m ≠ 0)
    (hnm : n < m) (hvn : M.cols % n = 0 ∧ n % 4 = 0)
    (hvm : M.cols % m = 0 ∧ m % 4 = 0) :
    (∃ Cn Cm, compress M n = .ok Cn ∧ compress M m = .ok Cm ∧
      compressedBits Cm < compressedBits Cn) ∧
    (∀ k : ℚ, overheadFraction k = 8 / k) ∧
    overheadFraction 16 = 1 / 2 ∧ overheadFraction 64 = 1 / 8 ∧
    overheadFraction 256 = 1 / 32 := by
  refine ⟨?_, ?_, by norm_num [overheadFraction], by norm_num [overheadFraction],
    by norm_num [overheadFraction]⟩
  case refine_2 =>
    intro k
    rcases eq_or_ne k 0 with h0 | h0
    · simp [overheadFraction, h0]
    · rw [overheadFraction]
      field_simp
      ring
  · obtain ⟨Cn, hokn, hbn⟩ := compressedBits_compress M n hn hwf hvn
    obtain ⟨Cm, hokm, hbm⟩ := compressedBits_compress M m hm hwf hvm
    refine ⟨Cn, Cm, hokn, hokm, ?_⟩
    rw [hbn, hbm]
    obtain ⟨q, hq⟩ := Nat.dvd_of_mod_eq_zero hvn.1
    obtain ⟨p, hp⟩ := Nat.dvd_of_mod_eq_zero hvm.1
    have hq0 : q ≠ 0 := by
      intro h0
      rw [h0, Nat.mul_zero] at hq
      exact hcols hq
    have hp0 : p ≠ 0 := by
      intro h0
      rw [h0, Nat.mul_zero] at hp
      exact hcols hp
    have hqn : M.cols / n = q := by
      rw [hq, Nat.mul_div_cancel_left _ (Nat.pos_of_ne_zero hn)]
    have hpm : M.cols / m = p := by
      rw [hp, Nat.mul_div_cancel_left _ (Nat.pos_of_ne_zero hm)]
    have hpq : p < q := by
      by_contra hcon
      push_neg at hcon
      have h1 : n * q ≤ n * p := Nat.mul_le_mul_left n hcon
      have h2 : n * p < m * p :=
        (Nat.mul_lt_mul_right (Nat.pos_of_ne_zero hp0)).mpr hnm
      rw [← hq, ← hp] at *
      omega
    rw [hqn, hpm]
    have hqexp : q * (4 * n + 32) = 4 * M.cols + 32 * q := by
      rw [hq]
      ring
    have hpexp : p * (4 * m + 32) = 4 * M.cols + 32 * p := by
      rw [hp]
      ring
    rw [hqexp, hpexp]
    exact (Nat.mul_lt_mul_left (Nat.pos_of_ne_zero hrows)).mpr (by omega)

/-- Claim C7 witness: strict size decrease on a concrete 1×8 matrix when the
group size grows from 4 to 8. -/
theorem compressed_size_monotone_witness :
    (∃ Cn Cm, compress ⟨8, [[0, 1, 2, 3, 4, 5, 6, 7]]⟩ 4 = .ok Cn ∧
      compress ⟨8, [[0, 1, 2, 3, 4, 5, 6, 7]]⟩ 8 = .ok Cm ∧
      compressedBits Cm < compressedBits Cn) ∧
    (∀ k : ℚ, overheadFraction k = 8 / k) ∧
    overheadFraction 16 = 1 / 2 ∧ overheadFraction 64 = 1 / 8 ∧
    overheadFraction 256 = 1 / 32 :=
  compressed_size_monotone ⟨8, [[0, 1, 2, 3, 4, 5, 6, 7]]⟩ 4 8
    (by
      intro r hr
      simp only [List.mem_singleton] at hr
      simp [hr])
    (by decide) (by decide) (by decide) (by decide) (by decide)
    (by decide) (by decide)

/-- Claim C8: group size 0 designates "quantization disabled" — the
pipeline keeps the uncompressed weights and `Compress` is never invoked —
while every non-zero group size reaches `Compress` and fails with
`InvalidGroupSizeError` exactly when the divisibility constraints are
violated. -/
theorem group_size_zero_disabled :
    (∀ M : Matrix, pipelineWeights M 0 = .ok (.uncompressed M)) ∧
    (∀ (M : Matrix) (n : Nat), n ≠ 0 →
      ((pipelineWeights M n = .error .invalidGroupSize ↔
          ¬(n ∣ M.cols ∧ 4 ∣ n)) ∧
        ((∃ C, pipelineWeights M n = .ok (.quantised C) ∧
            compress M n = .ok C) ↔ (n ∣ M.cols ∧ 4 ∣ n)))) := by
  constructor
  · intro M
    simp [pipelineWeights]
  · intro M n hn
    have hiff : (M.cols % n = 0 ∧ n % 4 = 0) ↔ (n ∣ M.cols ∧ 4 ∣ n) := by
      rw [Nat.dvd_iff_mod_eq_zero, Nat.dvd_iff_mod_eq_zero]
    by_cases h : M.cols % n = 0 ∧ n % 4 = 0
    · constructor
      · simp [pipelineWeights, hn, compress, if_pos h, Except.map, hiff.mp h]
      · refine ⟨fun _ => hiff.mp h, fun _ =>
          ⟨{ cols := M.cols, groupSize := n,
             packed := M.data.map fun row => pack4 (rowBins n row),
             scales := M.data.map fun row => (chunkList n row).map groupScale,
             biases := M.data.map fun row => (chunkList n row).map groupBias },
           by simp [pipelineWeights, hn, compress, if_pos h, Except.map],
           by simp only [compress, if_pos h]⟩⟩
    · constructor
      · simp [pipelineWeights, hn, compress, if_neg h, Except.map, hiff.not.mp h]
      · constructor
        · rintro ⟨C, hC, _⟩
          simp [pipelineWeights, hn, compress, if_neg h, Except.map] at hC
        · intro hd
          exact absurd (hiff.mpr hd) h

/-- Claim C8 witness: the disabled case on a concrete matrix, and a
non-zero group size violating the constraints. -/
theorem group_size_zero_disabled_witness :
    pipelineWeights ⟨6, []⟩ 0 = .ok (.uncompressed ⟨6, []⟩) ∧
    (pipelineWeights ⟨6, []⟩ 3 = .error .invalidGroupSize ↔
      ¬(3 ∣ 6 ∧ 4 ∣ 3)) :=
  ⟨group_size_zero_disabled.1 ⟨6, []⟩,
    ((group_size_zero_disabled.2 ⟨6, []⟩ 3 (by decide)).1)⟩

/-- Claim C9: an MNLI example labelled `-1` does not raise in
`form_training_prompts` — Python negative indexing silently picks
`"contradiction"` as the prompt target — and only labels outside `-3..2`
raise `IndexError`. -/
theorem unlabeled_example_prompt :
    (∀ h p : String, form_training_prompts h p (-1) =
      some ("mnli hypothesis: " ++ h ++ " premise: " ++ p ++ " target: " ++
        "contradiction" ++ "<|endoftext|>")) ∧
    (∀ (h p : String) (label : Int),
      form_training_prompts h p label = none ↔ label < -3 ∨ 2 < label) := by
  constructor
  · intro h p
    norm_num [form_training_prompts, pyIndex, mnliTrainClasses]
    rfl
  · intro h p label
    rw [form_training_prompts, Option.map_eq_none']
    rw [pyIndex]
    have hlen : ((mnliTrainClasses.length : ℤ)) = 3 := by
      norm_num [mnliTrainClasses]
    rw [hlen]
    by_cases hneg : label < 0
    · simp only [if_pos hneg]
      by_cases hge : (0 : ℤ) ≤ label + 3
      · rw [if_pos hge, List.get?_eq_none]
        have hlen2 : mnliTrainClasses.length = 3 := by
          norm_num [mnliTrainClasses]
        rw [hlen2]
        omega
      · rw [if_neg hge]
        simp only [true_iff]
        omega
    · simp only [if_neg hneg]
      rw [if_pos (by omega), List.get?_eq_none]
      have hlen2 : mnliTrainClasses.length = 3 := by
        norm_num [mnliTrainClasses]
      rw [hlen2]
      omega

theorem pyIndex_mnli_isSome (z : Int) (hlo : -4 ≤ z) (hhi : z < 4) :
    (pyIndex mnliClasses z).isSome := by
  interval_cases z <;> decide

theorem mapM_pyIndex (L : List (String × Int))
    (hr : ∀ pl ∈ L, (pyIndex mnliClasses pl.2).isSome) :
    L.mapM (fun pl => (pyIndex mnliClasses pl.2).map fun c => decide (pl.1 = c))
      = some (L.map fun pl => decide (pyIndex mnliClasses pl.2 = some pl.1)) := by
  induction L with
  | nil => rfl
  | cons a L ih =>
    obtain ⟨c, hc⟩ := Option.isSome_iff_exists.mp (hr a (by simp))
    have hhead : decide (a.1 = c) = decide (pyIndex mnliClasses a.2 = some a.1) := by
      rw [hc, decide_eq_decide]
      constructor
      · intro h
        rw [h]
      · intro h
        exact (Option.some.inj h).symm
    rw [List.mapM_cons, hc, ih fun pl hpl => hr pl (by simp [hpl])]
    simp [hhead]

/-- Claim C10: `compute_accuracy` returns 100 times the number of zipped
positions where the prediction equals the class name of the dataset label,
divided by the number of predictions — a shorter prediction list silently
drops the surplus examples while still dividing by its own length, label
`-1` maps to the class name `"unknown"` by negative indexing, and an empty
prediction list raises `ZeroDivisionError`. -/
theorem compute_accuracy_spec :
    (∀ (preds : List String) (labels : List Int), preds ≠ [] →
      (∀ pl ∈ preds.zip labels, -4 ≤ pl.2 ∧ pl.2 < 4) →
      compute_accuracy preds labels =
        some ((((preds.zip labels).countP
            fun pl => decide (pyIndex mnliClasses pl.2 = some pl.1)) * 100 : ℚ)
          / preds.length)) ∧
    pyIndex mnliClasses (-1) = some "unknown" ∧
    (∀ labels : List Int, compute_accuracy [] labels = none) := by
  refine ⟨?_, by decide, fun labels => rfl⟩
  intro preds labels hne hr
  rw [compute_accuracy, mapM_pyIndex _
    fun pl hpl => pyIndex_mnli_isSome pl.2 (hr pl hpl).1 (hr pl hpl).2]
  have hlen : preds.length ≠ 0 := fun h0 => hne (List.length_eq_zero.mp h0)
  rw [Option.some_bind, if_neg hlen]
  congr 1
  rw [List.count_eq_countP, List.countP_map]
  have hsame : List.countP
      ((fun x => x == true) ∘ fun pl =>
        decide (pyIndex mnliClasses pl.2 = some pl.1)) (preds.zip labels)
      = List.countP (fun pl => decide (pyIndex mnliClasses pl.2 = some pl.1))
        (preds.zip labels) := by
    apply List.countP_congr
    intro x _
    simp [Function.comp]
  rw [hsame]

/-- Claim C10 witness: a two-element prediction list against a three-label
dataset, one label being the unlabeled marker `-1`. -/
theorem compute_accuracy_spec_witness :
    compute_accuracy ["entailment", "unknown"] [0, -1, 2] =
      some ((((["entailment", "unknown"].zip [0, -1, 2]).countP
          fun pl => decide (pyIndex mnliClasses pl.2 = some pl.1)) * 100 : ℚ)
        / (["entailment", "unknown"] : List String).length) :=
  compute_accuracy_spec.1 ["entailment", "unknown"] [0, -1, 2] (by decide)
    (by decide)

end GroupQuant
